import Mathlib

/-!
Shallow embedding of the snakes-and-ladders core (board, game state machine,
folding dice, buffered dice) from the repository sources, together with
theorems settling the specification claims.

The embedded revision is the one in src/unnamed/part_001 (board_t with
take_all_jumps chain resolution, game_t::move with the none_of fold) and
src/include/dice.h (upto3_dice_t, fixed_buffer_dice_t).  Machine integers
(int16_t cell iterators and offsets) are modelled as Int: the C++ code
promotes them to int before arithmetic and no value in a valid board
approaches the int range, so no wrap-around is observable.
-/

namespace snakes_and_ladders

/-- Mirror of the game_state_t enum: a game is either running or finished. -/
inductive game_state_t where
  | running : game_state_t
  | finished : game_state_t
deriving DecidableEq, Repr

/-- Embedding of upto3_dice_t::roll from src/include/dice.h.  The three
potential underlying die draws are passed explicitly (d0, d1, d2): the C++
object draws them lazily from its inner die, and at most three are consumed.
Returns the folded move-triple. -/
def upto3_roll (sides d0 d1 d2 : Int) : Int × Int × Int :=
  if d0 ≠ sides then (d0, 0, 0)
  else if d1 ≠ sides then (d0, d1, 0)
  else if d2 ≠ sides then (d0, d1, d2)
  else (0, 0, 0)

/-- The contents the background fill writes: n successive outputs of the
underlying generator starting at stream position start.  Models
std::generate_n over the underlying dice roll() stream. -/
def window {α : Type} (gen : Nat → α) (start n : Nat) : List α :=
  (List.range n).map (fun i => gen (start + i))

/-- State of fixed_buffer_dice_t from src/include/dice.h, sequentialised for
a single consumer: read and write are the two buffers (write holds what the
outstanding background fill will have produced by the time it is awaited),
read_index is the read cursor, filled is the stream position of the next
fill.  The half-buffer length N is a parameter of the operations. -/
structure fixed_buffer_dice_t (α : Type) where
  read : List α
  write : List α
  read_index : Nat
  filled : Nat

/-- Embedding of the fixed_buffer_dice_t constructor: the read buffer is
freshly allocated (uninitialised, modelled as default junk), the first
background fill of the write buffer is launched, and the read cursor starts
at N so that the very first roll() performs a swap. -/
def fb_init {α : Type} [Inhabited α] (gen : Nat → α) (N : Nat) : fixed_buffer_dice_t α :=
  ⟨List.replicate N default, window gen 0 N, N, N⟩

/-- Embedding of fixed_buffer_dice_t::roll (single consumer): if the read
cursor has reached N, await the fill, swap the buffers, reset the cursor and
launch the next fill; then return the triple at the cursor and bump it. -/
def fb_roll {α : Type} [Inhabited α] (gen : Nat → α) (N : Nat)
    (s : fixed_buffer_dice_t α) : α × fixed_buffer_dice_t α :=
  if s.read_index = N then
    (s.write.getD 0 default, ⟨s.write, window gen s.filled N, 1, s.filled + N⟩)
  else
    (s.read.getD s.read_index default, ⟨s.read, s.write, s.read_index + 1, s.filled⟩)

/-- Drain k successive roll() calls, collecting the outputs in order. -/
def fb_drain {α : Type} [Inhabited α] (gen : Nat → α) (N : Nat) :
    Nat → fixed_buffer_dice_t α → List α × fixed_buffer_dice_t α
  | 0, s => ([], s)
  | k + 1, s =>
    let vs := fb_drain gen N k s
    let v := fb_roll gen N vs.2
    (vs.1 ++ [v.1], v.2)

/-- Mirror of board_builder_t: the side length and the accumulated jump
list, in insertion order. -/
structure board_builder_t where
  side : Int
  jumps : List (Int × Int)
deriving DecidableEq, Repr

/-- Embedding of board_builder_t::add_jump from src/unnamed/part_001.  The
C++ throws std::logic_error with the rule text; the exception is modelled as
the error branch of Except.  On success the jump is appended. -/
def add_jump (b : board_builder_t) (f t : Int) : Except String board_builder_t :=
  if f < 0 ∨ t < 0 then .error "pre: source or destination less than start"
  else if b.side * b.side ≤ f ∨ b.side * b.side ≤ t then
    .error "pre: source or destination greater than end"
  else if (t - f).natAbs < 2 then .error "pre: jump length less than two"
  else if 0 < t - f ∧ f = 0 then .error "pre: ladder at start"
  else if t - f < 0 ∧ f = b.side * b.side - 1 then .error "pre: snake at end"
  else .ok ⟨b.side, b.jumps ++ [(f, t)]⟩

/-- Embedding of board_t::make_arena from src/unnamed/part_001: allocate
side*side + 1 cells with next = 0, then overwrite cell from with the jump
delta to - from for every registered jump, in list order. -/
def make_arena (b : board_builder_t) : List Int :=
  b.jumps.foldl (fun rc j => rc.set j.1.toNat (j.2 - j.1))
    (List.replicate (b.side * b.side + 1).toNat 0)

/-- Embedding of board_t::is_jump_cell: the cell's next offset is nonzero. -/
def is_jump_cell (arena : List Int) (c : Int) : Bool :=
  arena.getD c.toNat 0 ≠ 0

/-- Embedding of board_t::take_all_jumps: repeatedly follow next offsets
while standing on a jump cell.  The C++ while loop has no bound; it is
modelled with explicit fuel, and the termination theorem for acyclic boards
shows that fuel arena.length is never exhausted. -/
def take_all_jumps (arena : List Int) : Nat → Int → Int
  | 0, position => position
  | fuel + 1, position =>
    if is_jump_cell arena position then
      take_all_jumps arena fuel (position + arena.getD position.toNat 0)
    else position

/-- Embedding of board_t::advance from src/unnamed/part_001: board_t::end()
is arena.size(), so an overshoot past the final cell (index arena.size()-1)
returns the position unchanged; otherwise the jump chain from
position + count is resolved. -/
def advance (arena : List Int) (position count : Int) : Int :=
  if (arena.length : Int) ≤ position + count then position
  else take_all_jumps arena arena.length (position + count)

/-- Mirror of game_t: the arena of the referenced board, the current player
index, the player positions, and the running/finished state. -/
structure game_t where
  board : List Int
  current_player : Nat
  players : List Int
  state : game_state_t
deriving DecidableEq, Repr

/-- Embedding of the game_t constructor: n players all at board.begin() = 0,
current player 0, state running. -/
def mk_game (board : List Int) (n : Nat) : game_t :=
  ⟨board, 0, List.replicate n 0, .running⟩

/-- Embedding of the exec_single_step lambda inside game_t::move: advance
the current player's position, and if it now equals the final cell
(board.end() - 1) set the state to finished.  The Bool component is the
finished signal the none_of fold tests. -/
def exec_single_step (g : game_t) (offset : Int) : game_t × Bool :=
  let p2 := advance g.board (g.players.getD g.current_player 0) offset
  let g2 : game_t := { g with players := g.players.set g.current_player p2 }
  if p2 = (g.board.length : Int) - 1 then ({ g2 with state := .finished }, true)
  else (g2, false)

/-- Embedding of game_t::complete_turn: increment the current player index,
wrapping to 0 when it reaches the player count. -/
def complete_turn (g : game_t) : Nat :=
  if g.current_player + 1 = g.players.length then 0 else g.current_player + 1

/-- The none_of fold inside game_t::move: apply the steps in order, stopping
at the first one that signals finished; if none did, complete the turn. -/
def move_fold (g : game_t) : List Int → game_t
  | [] => { g with current_player := complete_turn g }
  | o :: os =>
    if (exec_single_step g o).2 then (exec_single_step g o).1
    else move_fold (exec_single_step g o).1 os

/-- Embedding of game_t::move from src/unnamed/part_001. -/
def move (g : game_t) (first second third : Int) : game_t :=
  move_fold g [first, second, third]

/-- Embedding of game_t::reset: state back to running, every player back to
board.begin() = 0. -/
def reset (g : game_t) : game_t :=
  { g with state := .running, players := List.replicate g.players.length 0 }

/-- Embedding of game_t::remove_player: build the iota list 0..n-1, erase
the removed index from it, erase the player's position, and return the
erased iota list together with the updated game. -/
def remove_player (g : game_t) (player : Nat) : List Nat × game_t :=
  ((List.range g.players.length).eraseIdx player,
    { g with players := g.players.eraseIdx player })

/-! ## Helper lemmas -/

/-- Reading an index just written by List.set returns the written value. -/
lemma getD_set_self {l : List Int} {i : Nat} {v : Int} (h : i < l.length) :
    (l.set i v).getD i 0 = v := by
  simp [List.getD_eq_getElem?_getD, List.getElem?_set, h]

/-- List.set leaves the value at every other index unchanged. -/
lemma getD_set_ne {l : List Int} {i j : Nat} {v : Int} (h : i ≠ j) :
    (l.set i v).getD j 0 = l.getD j 0 := by
  simp [List.getD_eq_getElem?_getD, List.getElem?_set, h]

/-- Every read of an all-zero replicate list yields 0. -/
lemma getD_replicate_zero : ∀ (m i : Nat), (List.replicate m (0 : Int)).getD i 0 = 0 := by
  intro m
  induction m with
  | zero => intro i; rfl
  | succ m ih =>
    intro i
    cases i with
    | zero => rfl
    | succ i => simpa [List.replicate, List.getD] using ih i

/-! ## Claim C3: overshoot forfeits the move -/

/-- Claim C3: for every valid position p (between 0 and the final cell
index) and every non-negative count with p + count strictly beyond the
final cell index, advance returns p unchanged. -/
theorem advance_overshoot (arena : List Int) (p count : Int)
    (hp0 : 0 ≤ p) (hp : p ≤ (arena.length : Int) - 1) (hc : 0 ≤ count)
    (hover : (arena.length : Int) - 1 < p + count) :
    advance arena p count = p := by
  unfold advance
  rw [if_pos]
  omega

/-- Witness for advance_overshoot at a concrete input: a 4-cell arena,
position 2, count 5. -/
theorem advance_overshoot_w :
    ((0 : Int) ≤ 2 ∧ (2 : Int) ≤ (([0, 0, 0, 0] : List Int).length : Int) - 1 ∧
      (0 : Int) ≤ 5 ∧ (([0, 0, 0, 0] : List Int).length : Int) - 1 < 2 + 5) ∧
    advance [0, 0, 0, 0] 2 5 = 2 :=
  ⟨by decide,
    advance_overshoot [0, 0, 0, 0] 2 5 (by decide) (by decide) (by decide) (by decide)⟩

/-! ## Claim C8: reset frame conditions -/

/-- Claim C8: reset puts every player back on the start cell and the state
back to running, and leaves the current player pointer, the player count
and the board untouched. -/
theorem reset_spec (g : game_t) :
    (reset g).state = .running ∧
    (reset g).players = List.replicate g.players.length 0 ∧
    (reset g).players.length = g.players.length ∧
    (∀ i : Nat, i < g.players.length → (reset g).players.getD i 0 = 0) ∧
    (reset g).current_player = g.current_player ∧
    (reset g).board = g.board := by
  refine ⟨rfl, rfl, by simp [reset], ?_, rfl, rfl⟩
  intro i _
  simpa [reset] using getD_replicate_zero g.players.length i

/-! ## Claim C2: folding roller triple shape -/

/-- Claim C2: over genuine die draws (each between 1 and sides), the folded
triple is (0,0,0) exactly when the first three draws are all sides;
otherwise the triple is the draws up to and including the first non-sides
draw, padded with zeros, and zeros occur only as a suffix. -/
theorem upto3_roll_spec (sides d0 d1 d2 : Int) (hs : 2 ≤ sides)
    (h0 : 1 ≤ d0 ∧ d0 ≤ sides) (h1 : 1 ≤ d1 ∧ d1 ≤ sides) (h2 : 1 ≤ d2 ∧ d2 ≤ sides) :
    (upto3_roll sides d0 d1 d2 = (0, 0, 0) ↔ d0 = sides ∧ d1 = sides ∧ d2 = sides) ∧
    (d0 ≠ sides → upto3_roll sides d0 d1 d2 = (d0, 0, 0)) ∧
    (d0 = sides → d1 ≠ sides → upto3_roll sides d0 d1 d2 = (d0, d1, 0)) ∧
    (d0 = sides → d1 = sides → d2 ≠ sides → upto3_roll sides d0 d1 d2 = (d0, d1, d2)) ∧
    ((upto3_roll sides d0 d1 d2).1 = 0 →
      (upto3_roll sides d0 d1 d2).2.1 = 0 ∧ (upto3_roll sides d0 d1 d2).2.2 = 0) ∧
    ((upto3_roll sides d0 d1 d2).2.1 = 0 → (upto3_roll sides d0 d1 d2).2.2 = 0) := by
  unfold upto3_roll
  split_ifs with e0 e1 e2 <;>
    refine ⟨?_, ?_, ?_, ?_, ?_, ?_⟩ <;>
      simp_all [Prod.ext_iff] <;> omega

/-- Witness for upto3_roll_spec: a six-sided die drawing 6 then 3. -/
theorem upto3_roll_spec_w :
    ((2 : Int) ≤ 6 ∧ (1 : Int) ≤ 6 ∧ (6 : Int) ≤ 6 ∧ (1 : Int) ≤ 3 ∧ (3 : Int) ≤ 6) ∧
    (upto3_roll 6 6 3 1 = (0, 0, 0) ↔ (6 : Int) = 6 ∧ (3 : Int) = 6 ∧ (1 : Int) = 6) :=
  ⟨by decide,
    (upto3_roll_spec 6 6 3 1 (by decide) (by decide) (by decide) (by decide)).1⟩

/-! ## Claim C7: builder validation rules -/

/-- Claim C7 counterexample: add_jump performs no duplicate-source check.
Adding the jump (5, 20) to a side-10 builder that already contains a jump
with source 5 is accepted and appended, while the claim requires it to be
rejected as a validation error. -/
theorem add_jump_dup_accepted :
    add_jump ⟨10, [(5, 20)]⟩ 5 20 = .ok ⟨10, [(5, 20), (5, 20)]⟩ := by
  rfl

/-- Claim C7 as amended: add_jump rejects exactly the jumps violating one
of: endpoint outside [0, side*side), displacement magnitude below 2, a
ladder starting at cell 0, or a snake starting at cell side*side - 1; the
rejection message identifies the violated rule (first in check order), and
an accepted jump is appended to the specification list.  Duplicate sources
are not checked. -/
theorem add_jump_spec (b : board_builder_t) (f t : Int) :
    ((f < 0 ∨ t < 0) → add_jump b f t = .error "pre: source or destination less than start") ∧
    (¬(f < 0 ∨ t < 0) → (b.side * b.side ≤ f ∨ b.side * b.side ≤ t) →
      add_jump b f t = .error "pre: source or destination greater than end") ∧
    (¬(f < 0 ∨ t < 0) → ¬(b.side * b.side ≤ f ∨ b.side * b.side ≤ t) → (t - f).natAbs < 2 →
      add_jump b f t = .error "pre: jump length less than two") ∧
    (¬(f < 0 ∨ t < 0) → ¬(b.side * b.side ≤ f ∨ b.side * b.side ≤ t) →
      ¬(t - f).natAbs < 2 → 0 < t - f ∧ f = 0 →
      add_jump b f t = .error "pre: ladder at start") ∧
    (¬(f < 0 ∨ t < 0) → ¬(b.side * b.side ≤ f ∨ b.side * b.side ≤ t) →
      ¬(t - f).natAbs < 2 → ¬(0 < t - f ∧ f = 0) → t - f < 0 ∧ f = b.side * b.side - 1 →
      add_jump b f t = .error "pre: snake at end") ∧
    (add_jump b f t = .ok ⟨b.side, b.jumps ++ [(f, t)]⟩ ↔
      ¬(f < 0 ∨ t < 0 ∨ b.side * b.side ≤ f ∨ b.side * b.side ≤ t ∨
        (t - f).natAbs < 2 ∨ (0 < t - f ∧ f = 0) ∨ (t - f < 0 ∧ f = b.side * b.side - 1))) ∧
    (∀ b2 : board_builder_t, add_jump b f t = .ok b2 → b2 = ⟨b.side, b.jumps ++ [(f, t)]⟩) := by
  refine ⟨?_, ?_, ?_, ?_, ?_, ⟨?_, ?_⟩, ?_⟩
  · intro h1; unfold add_jump; rw [if_pos h1]
  · intro h1 h2; unfold add_jump; rw [if_neg h1, if_pos h2]
  · intro h1 h2 h3; unfold add_jump; rw [if_neg h1, if_neg h2, if_pos h3]
  · intro h1 h2 h3 h4; unfold add_jump; rw [if_neg h1, if_neg h2, if_neg h3, if_pos h4]
  · intro h1 h2 h3 h4 h5
    unfold add_jump; rw [if_neg h1, if_neg h2, if_neg h3, if_neg h4, if_pos h5]
  · intro heq
    unfold add_jump at heq
    split_ifs at heq with h1 h2 h3 h4 h5
    tauto
  · intro hn
    have h1 : ¬(f < 0 ∨ t < 0) := by tauto
    have h2 : ¬(b.side * b.side ≤ f ∨ b.side * b.side ≤ t) := by tauto
    have h3 : ¬(t - f).natAbs < 2 := by tauto
    have h4 : ¬(0 < t - f ∧ f = 0) := by tauto
    have h5 : ¬(t - f < 0 ∧ f = b.side * b.side - 1) := by tauto
    unfold add_jump; rw [if_neg h1, if_neg h2, if_neg h3, if_neg h4, if_neg h5]
  · intro b2 heq
    unfold add_jump at heq
    split_ifs at heq <;> simp_all

/-! ## Claim C9: remove_player relabeling -/

/-- Modelled from the claim's words: the relabeling that claim C9 asserts
remove_player returns, sending each surviving old player index to its new
index after the removal of player removed. -/
def new_index_after_removal (removed old : Nat) : Nat :=
  if old < removed then old else old - 1

/-- Claim C9 counterexample: removing player 0 from a 3-player game returns
the list [1, 2].  Read as a map from old index to new index the entry for
old player 1 would have to be new_index_after_removal 0 1 = 0, but the list
holds 2 at position 1: the returned list maps each new index to its old
index, not the other way round. -/
theorem remove_player_cex :
    (remove_player (mk_game [0, 0] 3) 0).1 = [1, 2] ∧
    (remove_player (mk_game [0, 0] 3) 0).1.getD 1 0 = 2 ∧
    new_index_after_removal 0 1 = 0 ∧ (2 : Nat) ≠ 0 := by
  decide

/-- Erasing index id from range' s n splits it around the erased element. -/
lemma range'_eraseIdx : ∀ (n s id : Nat), id < n →
    (List.range' s n).eraseIdx id =
      List.range' s id ++ List.range' (s + id + 1) (n - id - 1) := by
  intro n
  induction n with
  | zero => intro s id h; omega
  | succ n ih =>
    intro s id h
    rw [List.range'_succ]
    cases id with
    | zero => simp
    | succ id =>
      rw [List.eraseIdx_cons_succ, ih (s + 1) id (by omega), List.range'_succ,
        List.cons_append]
      have e1 : s + 1 + id + 1 = s + (id + 1) + 1 := by omega
      have e2 : n - id - 1 = n + 1 - (id + 1) - 1 := by omega
      rw [e1, e2]

/-- Reading range' below its length. -/
lemma getD_range' (n s i : Nat) (h : i < n) : (List.range' s n).getD i 0 = s + i := by
  rw [List.getD_eq_getElem?_getD, List.getElem?_range' s 1 h]
  simp

/-- Claim C9 as amended: remove_player erases the player's position from
the position sequence (leaving n - 1 players) and returns the list of the
surviving players' old indices in their new order, i.e. the relabeling
mapping each new index to its old index (the inverse direction of the one
the claim stated). -/
theorem remove_player_spec (g : game_t) (id : Nat) (h : id < g.players.length) :
    ((remove_player g id).2).players = g.players.eraseIdx id ∧
    ((remove_player g id).2).players.length = g.players.length - 1 ∧
    (remove_player g id).1 = (List.range g.players.length).eraseIdx id ∧
    (remove_player g id).1.length = g.players.length - 1 ∧
    (∀ i : Nat, i < id → (remove_player g id).1.getD i 0 = i) ∧
    (∀ i : Nat, id ≤ i → i < g.players.length - 1 →
      (remove_player g id).1.getD i 0 = i + 1) := by
  have hsplit : (List.range g.players.length).eraseIdx id =
      List.range' 0 id ++ List.range' (id + 1) (g.players.length - id - 1) := by
    rw [List.range_eq_range', range'_eraseIdx _ 0 id h]
    norm_num
  refine ⟨rfl, ?_, rfl, ?_, ?_, ?_⟩
  · simp [remove_player, List.length_eraseIdx, h]
  · simp [remove_player, List.length_eraseIdx, h]
  · intro i hi
    show ((List.range g.players.length).eraseIdx id).getD i 0 = i
    rw [hsplit, List.getD_eq_getElem?_getD, List.getElem?_append_left (by simpa using hi),
      ← List.getD_eq_getElem?_getD, getD_range' id 0 i hi]
    omega
  · intro i hi1 hi2
    show ((List.range g.players.length).eraseIdx id).getD i 0 = i + 1
    rw [hsplit, List.getD_eq_getElem?_getD,
      List.getElem?_append_right (by simpa using hi1), ← List.getD_eq_getElem?_getD]
    have hlen : (List.range' 0 id).length = id := by simp
    rw [hlen, getD_range' (g.players.length - id - 1) (id + 1) (i - id) (by omega)]
    omega

/-- Witness for remove_player_spec: removing player 1 from a 3-player
game. -/
theorem remove_player_spec_w :
    1 < (mk_game [0] 3).players.length ∧
    (remove_player (mk_game [0] 3) 1).1 = (List.range 3).eraseIdx 1 :=
  ⟨by decide, (remove_player_spec (mk_game [0] 3) 1 (by decide)).2.2.1⟩

/-! ## Claim C10: current player stays in range -/

/-- The first component of exec_single_step keeps the player count. -/
lemma exec_single_step_length (g : game_t) (o : Int) :
    ((exec_single_step g o).1).players.length = g.players.length := by
  unfold exec_single_step
  dsimp only
  split <;> simp

/-- The first component of exec_single_step keeps the current player. -/
lemma exec_single_step_cp (g : game_t) (o : Int) :
    ((exec_single_step g o).1).current_player = g.current_player := by
  unfold exec_single_step
  dsimp only
  split <;> rfl

/-- The move fold keeps the current player index inside the player list. -/
lemma move_fold_cp_lt : ∀ (os : List Int) (g : game_t),
    g.current_player < g.players.length →
    (move_fold g os).current_player < (move_fold g os).players.length := by
  intro os
  induction os with
  | nil =>
    intro g h
    simp only [move_fold, complete_turn]
    split <;> omega
  | cons o os ih =>
    intro g h
    unfold move_fold
    split
    · rw [exec_single_step_cp, exec_single_step_length]
      exact h
    · exact ih _ (by rw [exec_single_step_cp, exec_single_step_length]; exact h)

/-- Claim C10: a game constructed with n players starts at current player
0 with n positions, move keeps the current player index strictly below the
player count, and the turn-completion successor wraps the last index to
0. -/
theorem current_player_invariant (board : List Int) (n : Nat) (hn : 1 ≤ n) :
    (mk_game board n).current_player = 0 ∧
    (mk_game board n).players.length = n ∧
    (mk_game board n).current_player < n ∧
    (∀ (g : game_t) (a b c : Int), g.current_player < g.players.length →
      (move g a b c).current_player < (move g a b c).players.length) ∧
    (∀ g : game_t, g.current_player + 1 = g.players.length → complete_turn g = 0) := by
  refine ⟨rfl, by simp [mk_game], by simpa [mk_game] using hn, ?_, ?_⟩
  · intro g a b c h
    exact move_fold_cp_lt [a, b, c] g h
  · intro g h
    simp [complete_turn, h]

/-- Witness for current_player_invariant: a 2-player game on a 2-cell
board. -/
theorem current_player_invariant_w :
    1 ≤ 2 ∧ (mk_game [0, 0] 2).current_player = 0 :=
  ⟨by decide, (current_player_invariant [0, 0] 2 (by decide)).1⟩

/-! ## Claim C5: arena compilation -/

/-- The arena-building fold preserves the cell count. -/
lemma arena_fold_length : ∀ (js : List (Int × Int)) (acc : List Int),
    (js.foldl (fun rc j => rc.set j.1.toNat (j.2 - j.1)) acc).length = acc.length := by
  intro js
  induction js with
  | nil => intro acc; rfl
  | cons j js ih =>
    intro acc
    rw [List.foldl_cons, ih]
    exact List.length_set acc _ _

/-- Cells that are no jump's source keep their prior value through the
arena-building fold. -/
lemma arena_fold_getD_not_mem : ∀ (js : List (Int × Int)) (acc : List Int) (i : Nat),
    (∀ j ∈ js, j.1.toNat ≠ i) →
    (js.foldl (fun rc j => rc.set j.1.toNat (j.2 - j.1)) acc).getD i 0 = acc.getD i 0 := by
  intro js
  induction js with
  | nil => intro acc i _; rfl
  | cons j js ih =>
    intro acc i hne
    rw [List.foldl_cons, ih _ i (fun x hx => hne x (List.mem_cons_of_mem _ hx)),
      getD_set_ne (hne j (List.mem_cons_self _ _))]

/-- With pairwise distinct sources, each jump's source cell ends up holding
its own delta. -/
lemma arena_fold_getD_mem : ∀ (js : List (Int × Int)) (acc : List Int) (j : Int × Int),
    j ∈ js → (js.map fun x => x.1.toNat).Nodup → j.1.toNat < acc.length →
    (js.foldl (fun rc x => rc.set x.1.toNat (x.2 - x.1)) acc).getD j.1.toNat 0 =
      j.2 - j.1 := by
  intro js
  induction js with
  | nil => intro acc j hj _ _; cases hj
  | cons a as ih =>
    intro acc j hj hnd hlen
    rw [List.foldl_cons]
    rcases List.mem_cons.mp hj with he | hm
    · subst he
      have hnotin : ∀ x ∈ as, x.1.toNat ≠ j.1.toNat := by
        intro x hx hcontra
        have hmem : j.1.toNat ∈ List.map (fun y => y.1.toNat) as :=
          hcontra ▸ List.mem_map_of_mem _ hx
        exact (List.nodup_cons.mp hnd).1 hmem
      rw [arena_fold_getD_not_mem as _ _ hnotin]
      exact getD_set_self hlen
    · exact ih _ j hm (List.nodup_cons.mp hnd).2 (by simpa [List.length_set] using hlen)

/-- Claim C5: for a validated, duplicate-free jump list on a side-N board,
make_arena produces exactly N*N + 1 cells where each registered source cell
holds the jump delta to - from and every other cell, the final cell
included, holds 0. -/
theorem make_arena_spec (b : board_builder_t) (hside : 0 ≤ b.side)
    (hdist : (b.jumps.map Prod.fst).Nodup)
    (hbnd : ∀ j ∈ b.jumps, 0 ≤ j.1 ∧ j.1 < b.side * b.side) :
    (make_arena b).length = (b.side * b.side).toNat + 1 ∧
    (∀ j ∈ b.jumps, (make_arena b).getD j.1.toNat 0 = j.2 - j.1) ∧
    (∀ i : Nat, i < (b.side * b.side).toNat + 1 →
      (∀ j ∈ b.jumps, j.1.toNat ≠ i) → (make_arena b).getD i 0 = 0) ∧
    (make_arena b).getD (b.side * b.side).toNat 0 = 0 := by
  have hsq : (0 : Int) ≤ b.side * b.side := mul_self_nonneg _
  have hnat : (b.jumps.map fun x => x.1.toNat).Nodup := by
    have hmm : (b.jumps.map fun x => x.1.toNat) = (b.jumps.map Prod.fst).map Int.toNat := by
      rw [List.map_map]
      rfl
    rw [hmm]
    refine List.Nodup.map_on ?_ hdist
    intro x hx y hy hxy
    obtain ⟨jx, hjx, hjx2⟩ := List.mem_map.mp hx
    obtain ⟨jy, hjy, hjy2⟩ := List.mem_map.mp hy
    have h1 := (hbnd jx hjx).1
    have h2 := (hbnd jy hjy).1
    omega
  refine ⟨?_, ?_, ?_, ?_⟩
  · unfold make_arena
    rw [arena_fold_length, List.length_replicate]
    omega
  · intro j hj
    unfold make_arena
    refine arena_fold_getD_mem _ _ j hj hnat ?_
    have := hbnd j hj
    rw [List.length_replicate]
    omega
  · intro i _ hni
    unfold make_arena
    rw [arena_fold_getD_not_mem _ _ _ hni, getD_replicate_zero]
  · unfold make_arena
    rw [arena_fold_getD_not_mem, getD_replicate_zero]
    intro j hj
    have := hbnd j hj
    omega

/-- Witness for make_arena_spec: a side-3 board with a ladder and a
snake. -/
theorem make_arena_spec_w :
    ((0 : Int) ≤ 3 ∧ (([((1 : Int), (4 : Int)), (6, 2)].map Prod.fst).Nodup) ∧
      (∀ j ∈ [((1 : Int), (4 : Int)), (6, 2)], 0 ≤ j.1 ∧ j.1 < (3 : Int) * 3)) ∧
    (make_arena ⟨3, [(1, 4), (6, 2)]⟩).length = ((3 : Int) * 3).toNat + 1 :=
  ⟨⟨by decide, by decide, by decide⟩,
    (make_arena_spec ⟨3, [(1, 4), (6, 2)]⟩ (by decide) (by decide) (by decide)).1⟩

/-! ## Claim C1: move applies offsets in order with early exit -/

/-- One step of move that lands the current player exactly on the final
cell: position written, state set to finished, finished signal raised. -/
lemma exec_single_step_eq_pos (g : game_t) (o : Int)
    (h : advance g.board (g.players.getD g.current_player 0) o = (g.board.length : Int) - 1) :
    exec_single_step g o =
      ({ g with
          players := g.players.set g.current_player
            (advance g.board (g.players.getD g.current_player 0) o),
          state := .finished }, true) := by
  simp only [exec_single_step]
  rw [if_pos h]

/-- One step of move that does not land on the final cell: position
written, state and finished signal untouched. -/
lemma exec_single_step_eq_neg (g : game_t) (o : Int)
    (h : advance g.board (g.players.getD g.current_player 0) o ≠ (g.board.length : Int) - 1) :
    exec_single_step g o =
      ({ g with
          players := g.players.set g.current_player
            (advance g.board (g.players.getD g.current_player 0) o) }, false) := by
  simp only [exec_single_step]
  rw [if_neg h]

/-- Transcription of claim C1's case analysis of one move(a, b, c) call:
p1, p2, p3 are the successive Board.advance results of applying the three
offsets to the current player's position and L is the final cell index.
As soon as an applied offset reaches L the state becomes finished, the
remaining offsets are not applied and the current player is unchanged;
if no offset reaches L, the state stays running and the current player
advances by exactly one ring step. -/
def move_claim (g : game_t) (a b c p1 p2 p3 L : Int) : Prop :=
  (p1 = L → move g a b c =
    { g with
        players := g.players.set g.current_player p1,
        state := game_state_t.finished }) ∧
  (p1 ≠ L → p2 = L → move g a b c =
    { g with
        players := g.players.set g.current_player p2,
        state := game_state_t.finished }) ∧
  (p1 ≠ L → p2 ≠ L → p3 = L → move g a b c =
    { g with
        players := g.players.set g.current_player p3,
        state := game_state_t.finished }) ∧
  (p1 ≠ L → p2 ≠ L → p3 ≠ L → move g a b c =
    { g with
        current_player := (g.current_player + 1) % g.players.length,
        players := g.players.set g.current_player p3,
        state := game_state_t.running })

/-- Claim C1: for every running game whose current player index is in
range, move(a, b, c) behaves as the case analysis in move_claim, at the
successive advance results of the three offsets. -/
theorem move_spec (g : game_t) (a b c : Int)
    (hcp : g.current_player < g.players.length)
    (hrun : g.state = game_state_t.running) :
    move_claim g a b c
      (advance g.board (g.players.getD g.current_player 0) a)
      (advance g.board (advance g.board (g.players.getD g.current_player 0) a) b)
      (advance g.board
        (advance g.board (advance g.board (g.players.getD g.current_player 0) a) b) c)
      ((g.board.length : Int) - 1) := by
  obtain ⟨bd, cp, pl, st⟩ := g
  dsimp only at hcp hrun ⊢
  subst hrun
  have hset : ∀ v : Int, (pl.set cp v).getD cp 0 = v := fun v => getD_set_self hcp
  unfold move_claim
  dsimp only
  refine ⟨?_, ?_, ?_, ?_⟩
  · intro h1
    unfold move
    simp only [move_fold]
    rw [exec_single_step_eq_pos _ a h1]
    simp
  · intro h1 h2
    unfold move
    simp only [move_fold]
    rw [exec_single_step_eq_neg _ a h1]
    dsimp only
    rw [if_neg (by decide : ¬ (false = true))]
    rw [exec_single_step_eq_pos _ b (by dsimp only; rw [hset]; exact h2)]
    dsimp only
    rw [hset, List.set_set]
    simp
  · intro h1 h2 h3
    unfold move
    simp only [move_fold]
    rw [exec_single_step_eq_neg _ a h1]
    dsimp only
    rw [if_neg (by decide : ¬ (false = true))]
    rw [exec_single_step_eq_neg _ b (by dsimp only; rw [hset]; exact h2)]
    dsimp only
    rw [if_neg (by decide : ¬ (false = true))]
    rw [hset, exec_single_step_eq_pos _ c (by dsimp only; rw [List.set_set, hset]; exact h3)]
    simp [hset, List.set_set, List.getElem?_set, hcp]
  · intro h1 h2 h3
    unfold move
    simp only [move_fold]
    rw [exec_single_step_eq_neg _ a h1]
    dsimp only
    rw [if_neg (by decide : ¬ (false = true))]
    rw [exec_single_step_eq_neg _ b (by dsimp only; rw [hset]; exact h2)]
    dsimp only
    rw [if_neg (by decide : ¬ (false = true))]
    rw [hset, exec_single_step_eq_neg _ c (by dsimp only; rw [List.set_set, hset]; exact h3)]
    simp [hset, List.set_set, List.getElem?_set, hcp, complete_turn, List.length_set]
    by_cases hw : cp + 1 = pl.length
    · simp [hw]
    · simp [hw, Nat.mod_eq_of_lt (show cp + 1 < pl.length by omega)]

/-- Witness for move_spec: a 2-player game on a jump-free 3-cell board
moving 1, 1, 1 from the start. -/
theorem move_spec_w :
    ((mk_game [0, 0, 0] 2).current_player < (mk_game [0, 0, 0] 2).players.length ∧
      (mk_game [0, 0, 0] 2).state = game_state_t.running) ∧
    move_claim (mk_game [0, 0, 0] 2) 1 1 1
      (advance (mk_game [0, 0, 0] 2).board
        ((mk_game [0, 0, 0] 2).players.getD (mk_game [0, 0, 0] 2).current_player 0) 1)
      (advance (mk_game [0, 0, 0] 2).board
        (advance (mk_game [0, 0, 0] 2).board
          ((mk_game [0, 0, 0] 2).players.getD (mk_game [0, 0, 0] 2).current_player 0) 1) 1)
      (advance (mk_game [0, 0, 0] 2).board
        (advance (mk_game [0, 0, 0] 2).board
          (advance (mk_game [0, 0, 0] 2).board
            ((mk_game [0, 0, 0] 2).players.getD (mk_game [0, 0, 0] 2).current_player 0) 1) 1) 1)
      (((mk_game [0, 0, 0] 2).board.length : Int) - 1) :=
  ⟨⟨by decide, by decide⟩, move_spec (mk_game [0, 0, 0] 2) 1 1 1 (by decide) (by decide)⟩


/-- Witness for add_jump_spec: the valid ladder (3, 14) on a side-10
builder is accepted and appended. -/
theorem add_jump_spec_w :
    add_jump ⟨10, []⟩ 3 14 = Except.ok ⟨10, [(3, 14)]⟩ :=
  (add_jump_spec ⟨10, []⟩ 3 14).2.2.2.2.2.1.mpr (by decide)

/-! ## Claim C6: buffered roll source preserves the generated order -/

/-- Reading inside a filled window yields the generator value at the
corresponding stream position. -/
lemma window_getD {α : Type} [Inhabited α] (gen : Nat → α) (start n i : Nat) (h : i < n) :
    (window gen start n).getD i default = gen (start + i) := by
  rw [window, List.getD_eq_getElem?_getD, List.getElem?_map, List.getElem?_range h]
  rfl

/-- Invariant of the sequentialised double buffer after k rolls: either no
roll has happened yet and the state is the freshly constructed one, or b0
rolls had been delivered when the current read buffer was swapped in, the
cursor is between 1 and N, the read buffer holds stream positions b0..b0+N-1,
the write buffer holds the next N positions, and the next fill starts at
b0 + 2N. -/
def fb_inv {α : Type} [Inhabited α] (gen : Nat → α) (N k : Nat)
    (s : fixed_buffer_dice_t α) : Prop :=
  (k = 0 ∧ s = fb_init gen N) ∨
  (∃ b0 : Nat, k = b0 + s.read_index ∧ 1 ≤ s.read_index ∧ s.read_index ≤ N ∧
    s.read = window gen b0 N ∧ s.write = window gen (b0 + N) N ∧ s.filled = b0 + 2 * N)

/-- One roll under the invariant delivers exactly the k-th generator value
and re-establishes the invariant. -/
lemma fb_roll_inv {α : Type} [Inhabited α] (gen : Nat → α) (N k : Nat) (hN : 0 < N)
    (s : fixed_buffer_dice_t α) (h : fb_inv gen N k s) :
    (fb_roll gen N s).1 = gen k ∧ fb_inv gen N (k + 1) (fb_roll gen N s).2 := by
  rcases h with ⟨hk, hs⟩ | ⟨b0, hk, h1, h2, hr, hw, hf⟩
  · subst hk
    subst hs
    unfold fb_roll fb_init
    dsimp only
    rw [if_pos rfl]
    refine ⟨by simpa using window_getD gen 0 N 0 hN, Or.inr ⟨0, rfl, le_refl 1, hN, rfl, ?_, ?_⟩⟩
    · rw [Nat.zero_add]
    · dsimp only
      omega
  · by_cases hidx : s.read_index = N
    · unfold fb_roll
      rw [if_pos hidx]
      dsimp only
      constructor
      · rw [hw]
        have := window_getD gen (b0 + N) N 0 hN
        rw [this]
        congr 1
        omega
      · refine Or.inr ⟨b0 + N, ?_, le_refl 1, hN, hw, ?_, ?_⟩
        · dsimp only
          omega
        · dsimp only
          rw [hf]
          congr 1
          omega
        · dsimp only
          omega
    · unfold fb_roll
      rw [if_neg hidx]
      dsimp only
      constructor
      · rw [hr, window_getD gen b0 N s.read_index (by omega), hk]
      · exact Or.inr ⟨b0, by dsimp only; omega, by dsimp only; omega, by dsimp only; omega,
          hr, hw, hf⟩

/-- Draining k rolls from the freshly constructed buffered source yields
the first k generator values in order. -/
lemma fb_drain_outputs {α : Type} [Inhabited α] (gen : Nat → α) (N : Nat) (hN : 0 < N) :
    ∀ k, (fb_drain gen N k (fb_init gen N)).1 = (List.range k).map gen ∧
      fb_inv gen N k (fb_drain gen N k (fb_init gen N)).2 := by
  intro k
  induction k with
  | zero => exact ⟨rfl, Or.inl ⟨rfl, rfl⟩⟩
  | succ k ih =>
    obtain ⟨ho, hi⟩ := ih
    obtain ⟨hv, hi2⟩ := fb_roll_inv gen N k hN _ hi
    constructor
    · simp only [fb_drain]
      rw [ho, hv, List.range_succ, List.map_append]
      rfl
    · simp only [fb_drain]
      exact hi2

/-- Claim C6: draining the buffered roll source 2N times (N the half-buffer
length) delivers exactly the first 2N outputs of the underlying generator
in order: the swap neither reorders, drops nor duplicates values. -/
theorem fb_refinement {α : Type} [Inhabited α] (gen : Nat → α) (N : Nat) (hN : 0 < N) :
    (fb_drain gen N (2 * N) (fb_init gen N)).1 = (List.range (2 * N)).map gen :=
  (fb_drain_outputs gen N hN (2 * N)).1

/-- Witness for fb_refinement: half-buffer length 2 over the identity
generator, drained four times. -/
theorem fb_refinement_w :
    0 < 2 ∧ (fb_drain (fun n => n) 2 (2 * 2) (fb_init (fun n => n) 2)).1 =
      (List.range (2 * 2)).map (fun n => n) :=
  ⟨by decide, fb_refinement (fun n => n) 2 (by decide)⟩

/-! ## Claim C4: jump chains terminate on acyclic boards -/

/-- One chain step of take_all_jumps: from a jump cell to the cell its next
offset points at. -/
def jump_step_rel (arena : List Int) (p q : Int) : Prop :=
  is_jump_cell arena p = true ∧ q = p + arena.getD p.toNat 0

/-- An arena is acyclic when no cell can reach itself by a nonempty chain
of jumps; this is what an acyclic jump specification compiles to. -/
def acyclic (arena : List Int) : Prop :=
  ∀ p : Int, ¬ Relation.TransGen (jump_step_rel arena) p p

/-- Every jump from an in-range cell lands in range; boards compiled from
validated specifications satisfy this since every jump target lies in
[0, side*side). -/
def jump_targets_in_range (arena : List Int) : Prop :=
  ∀ p : Int, 0 ≤ p → p < (arena.length : Int) → is_jump_cell arena p = true →
    0 ≤ p + arena.getD p.toNat 0 ∧ p + arena.getD p.toNat 0 < (arena.length : Int)

/-- Once the chain has stopped on a non-jump cell, extra fuel changes
nothing. -/
lemma take_all_jumps_stable (arena : List Int) : ∀ (n : Nat) (p : Int),
    is_jump_cell arena (take_all_jumps arena n p) = false →
    ∀ m : Nat, n ≤ m → take_all_jumps arena m p = take_all_jumps arena n p := by
  intro n
  induction n with
  | zero =>
    intro p h m _
    simp only [take_all_jumps] at h
    cases m with
    | zero => rfl
    | succ m => simp [take_all_jumps, h]
  | succ n ih =>
    intro p h m hm
    by_cases hj : is_jump_cell arena p = true
    · have hstep : ∀ j : Nat, take_all_jumps arena (j + 1) p =
          take_all_jumps arena j (p + arena.getD p.toNat 0) := by
        intro j
        simp [take_all_jumps, hj]
      obtain ⟨m', rfl⟩ : ∃ m', m = m' + 1 := ⟨m - 1, by omega⟩
      rw [hstep] at h
      rw [hstep, hstep]
      exact ih _ h m' (by omega)
    · have hstop : ∀ j : Nat, take_all_jumps arena j p = p := by
        intro j
        cases j with
        | zero => rfl
        | succ j => simp [take_all_jumps, hj]
      rw [hstop, hstop]

/-- Pigeonhole core: if every jump cell reachable from p lies in the finite
set S and the arena is acyclic, fuel S.card already reaches a non-jump
cell, since the chain can never revisit a jump cell. -/
lemma take_all_jumps_card (arena : List Int) (hacy : acyclic arena) :
    ∀ (n : Nat) (S : Finset Int) (p : Int), S.card = n →
    (∀ q : Int, Relation.ReflTransGen (jump_step_rel arena) p q →
      is_jump_cell arena q = true → q ∈ S) →
    is_jump_cell arena (take_all_jumps arena n p) = false := by
  intro n
  induction n with
  | zero =>
    intro S p hcard hsub
    by_cases hj : is_jump_cell arena p = true
    · exfalso
      have hp : p ∈ S := hsub p Relation.ReflTransGen.refl hj
      rw [Finset.card_eq_zero] at hcard
      simp [hcard] at hp
    · show is_jump_cell arena p = false
      exact Bool.eq_false_iff.mpr hj
  | succ n ih =>
    intro S p hcard hsub
    by_cases hj : is_jump_cell arena p = true
    · have hpS : p ∈ S := hsub p Relation.ReflTransGen.refl hj
      have hcard' : (S.erase p).card = n := by
        rw [Finset.card_erase_of_mem hpS, hcard]
        omega
      have hstep : jump_step_rel arena p (p + arena.getD p.toNat 0) := ⟨hj, rfl⟩
      have hsub' : ∀ q : Int,
          Relation.ReflTransGen (jump_step_rel arena) (p + arena.getD p.toNat 0) q →
          is_jump_cell arena q = true → q ∈ S.erase p := by
        intro q hreach hq
        refine Finset.mem_erase.mpr
          ⟨?_, hsub q (Relation.ReflTransGen.head hstep hreach) hq⟩
        rintro rfl
        exact hacy q (Relation.TransGen.head' hstep hreach)
      have hred : take_all_jumps arena (n + 1) p =
          take_all_jumps arena n (p + arena.getD p.toNat 0) := by
        simp [take_all_jumps, hj]
      rw [hred]
      exact ih (S.erase p) _ hcard' hsub'
    · have hred : take_all_jumps arena (n + 1) p = p := by
        simp [take_all_jumps, hj]
      rw [hred]
      exact Bool.eq_false_iff.mpr hj

/-- Chain cells reachable from an in-range cell stay in range. -/
lemma reach_in_range (arena : List Int) (hcl : jump_targets_in_range arena)
    {p q : Int} (h : Relation.ReflTransGen (jump_step_rel arena) p q)
    (hp0 : 0 ≤ p) (hpl : p < (arena.length : Int)) :
    0 ≤ q ∧ q < (arena.length : Int) := by
  induction h with
  | refl => exact ⟨hp0, hpl⟩
  | tail _ hbc ih =>
    obtain ⟨hb0, hbl⟩ := ih
    obtain ⟨hj, hc⟩ := hbc
    rw [hc]
    exact hcl _ hb0 hbl hj

/-- Claim C4: on an acyclic arena whose jumps stay in range, advancing to a
target at or before the final cell resolves the full jump chain: the result
is a non-jump cell (or the final cell), and the chain terminates, in that
fuel beyond arena.length makes no difference to take_all_jumps. -/
theorem advance_resolves (arena : List Int) (hacy : acyclic arena)
    (hcl : jump_targets_in_range arena) (p count : Int)
    (h0 : 0 ≤ p + count) (hle : p + count ≤ (arena.length : Int) - 1) :
    (is_jump_cell arena (advance arena p count) = false ∨
      advance arena p count = (arena.length : Int) - 1) ∧
    (∀ m : Nat, arena.length ≤ m →
      take_all_jumps arena m (p + count) =
        take_all_jumps arena arena.length (p + count)) := by
  have hadv : advance arena p count = take_all_jumps arena arena.length (p + count) := by
    unfold advance
    rw [if_neg (by omega)]
  set S : Finset Int := (Finset.Icc (0 : Int) ((arena.length : Int) - 1)).filter
      (fun q => is_jump_cell arena q = true) with hS
  have hsub : ∀ q : Int, Relation.ReflTransGen (jump_step_rel arena) (p + count) q →
      is_jump_cell arena q = true → q ∈ S := by
    intro q hreach hq
    have hb := reach_in_range arena hcl hreach h0 (by omega)
    rw [hS]
    exact Finset.mem_filter.mpr ⟨Finset.mem_Icc.mpr ⟨hb.1, by omega⟩, hq⟩
  have hcard : S.card ≤ arena.length := by
    calc S.card ≤ (Finset.Icc (0 : Int) ((arena.length : Int) - 1)).card :=
        Finset.card_filter_le _ _
      _ = arena.length := by
        rw [Int.card_Icc]
        omega
  have hstop : is_jump_cell arena (take_all_jumps arena S.card (p + count)) = false :=
    take_all_jumps_card arena hacy S.card S (p + count) rfl hsub
  have hstab := take_all_jumps_stable arena S.card (p + count) hstop
  constructor
  · left
    rw [hadv, hstab arena.length hcard]
    exact hstop
  · intro m hm
    rw [hstab m (by omega), hstab arena.length hcard]

/-- Witness for advance_resolves: the jump-free 3-cell arena, advancing
from 0 by 1. -/
theorem advance_resolves_w :
    acyclic [0, 0, 0] ∧ jump_targets_in_range [0, 0, 0] ∧
    (is_jump_cell [0, 0, 0] (advance [0, 0, 0] 0 1) = false ∨
      advance [0, 0, 0] 0 1 = (([0, 0, 0] : List Int).length : Int) - 1) := by
  have hz : ∀ k : Nat, ([0, 0, 0] : List Int).getD k 0 = 0 := by
    intro k
    rcases k with _ | _ | _ | k <;> rfl
  have hnr : ∀ x y : Int, ¬ jump_step_rel [0, 0, 0] x y := by
    intro x y hxy
    have hx := hxy.1
    simp only [is_jump_cell, ne_eq, decide_eq_true_eq] at hx
    exact hx (hz x.toNat)
  have hacy : acyclic [0, 0, 0] := by
    intro q h
    cases h with
    | single h1 => exact hnr _ _ h1
    | tail _ h1 => exact hnr _ _ h1
  have hcl : jump_targets_in_range [0, 0, 0] := by
    intro q _ _ hj
    simp only [is_jump_cell, ne_eq, decide_eq_true_eq] at hj
    exact absurd (hz q.toNat) hj
  exact ⟨hacy, hcl, (advance_resolves [0, 0, 0] hacy hcl 0 1 (by decide) (by decide)).1⟩

end snakes_and_ladders
